import Mathlib

/-!
Verification development for the ROE / HMLR reconciliation script
(`roe-hmlr-matching.py`).  The Python pipeline is shallowly embedded:
strings are `List Char`, pandas rows are structures, the statistics block
of `main` is a pure function returning `Except` (a `ZeroDivisionError`
models the only runtime failure the block can raise).
-/

namespace RoeHmlr

/-! ## Character classes

Models of the Python regex character classes, restricted to the ASCII
fragment the data uses.  `isSpaceChar` models `\s`, `isWordChar` models
`\w` (note: `\w` includes the underscore), `isUpperChar` models the
ASCII upper-case range that `str.lower` maps down. -/

def isSpaceChar (c : Char) : Bool :=
  c == ' ' || c == '\t' || c == '\n' || c == '\r' || c == '\x0b' || c == '\x0c'

def isWordChar (c : Char) : Bool :=
  c.isAlphanum || c == '_'

def isUpperChar (c : Char) : Bool :=
  decide (65 ≤ c.toNat ∧ c.toNat ≤ 90)

/-- ASCII lower-casing, modelling Python `str.lower` on the data's
alphabet (`Char.toLower` maps exactly the basic latin range down). -/
def pyLower (c : Char) : Char :=
  c.toLower

/-! ## The normalization pipeline (`clean_company_name`, lines 62-75)

The Python function is, in source order:
1. `str(company_name).lower()`
2. `re.sub(r"[^\w\d\s]", "", ...)` - keep only word chars, digits, whitespace
3. `basename(...)` from the `cleanco` package - strip legal suffix tokens
4. `re.sub(" ", "", ...)` - remove literal space characters
5. `re.sub(r"\ss\w\srl$", "", ...)` - end-anchored SRL-form removal
-/

/-- Step 2: drop every character that is not a word character, digit or
whitespace (the regex class `[^\w\d\s]`; `\d` is contained in `\w`). -/
def stripNonWord (s : List Char) : List Char :=
  s.filter (fun c => isWordChar c || isSpaceChar c)

/-- Python `str.split()`: split on runs of whitespace, discarding empties.
`acc` is the reversed current token. -/
def splitWsAux : List Char → List Char → List (List Char)
  | [], acc => if acc = [] then [] else [acc.reverse]
  | c :: cs, acc =>
    if isSpaceChar c then
      if acc = [] then splitWsAux cs [] else acc.reverse :: splitWsAux cs []
    else splitWsAux cs (c :: acc)

def splitWs (s : List Char) : List (List Char) :=
  splitWsAux s []

/-- Python `" ".join(tokens)`. -/
def joinSpace : List (List Char) → List Char
  | [] => []
  | [t] => t
  | t :: t2 :: ts => t ++ ' ' :: joinSpace (t2 :: ts)

/-- Modelled from the spec: the legal-suffix vocabulary of the `cleanco`
package (whose sources are not part of this repository).  The spec names
"Ltd", "Inc", "GmbH", "S.r.l." as vocabulary entries and its test
examples additionally require "Limited" and "SRL"; terms are stored
punctuation-free and lower-case, as `cleanco` normalizes them. -/
def suffixVocab : List (List Char) :=
  ["gmbh".data, "inc".data, "limited".data, "ltd".data, "srl".data]

/-- Modelled from the spec: the suffix-stripping loop of `cleanco.basename`
(not part of this repository).  Each vocabulary term is tried once, in
list order, and removed when it equals the trailing token of the name. -/
def stripSuffixTerms (toks : List (List Char)) : List (List Char) :=
  suffixVocab.foldl
    (fun ts term => if ts.getLast? = some term then ts.dropLast else ts) toks

/-- Modelled from the spec: `cleanco.basename` - tokenize on whitespace,
strip trailing legal-suffix vocabulary tokens, re-join with single
spaces. -/
def basename (s : List Char) : List Char :=
  joinSpace (stripSuffixTerms (splitWs s))

/-- Step 4: `re.sub(" ", "", ...)` removes literal spaces only. -/
def despace (s : List Char) : List Char :=
  s.filter (fun c => c != ' ')

/-- Does a six-character window match the regex `\ss\w\srl`? -/
def srlMatch : List Char → Bool
  | [a, b, c, d, e, f] =>
    isSpaceChar a && (b == 's') && isWordChar c && isSpaceChar d
      && (e == 'r') && (f == 'l')
  | _ => false

/-- Step 5: `re.sub(r"\ss\w\srl$", "", ...)` - if the last six characters
match the end-anchored pattern, delete them. -/
def srlSub (s : List Char) : List Char :=
  if srlMatch (s.drop (s.length - 6)) = true then s.take (s.length - 6) else s

/-- `clean_company_name` (lines 62-75), steps composed in source order:
lower-case, strip non-word characters, strip legal suffixes, remove
spaces, then the end-anchored SRL pattern removal. -/
def clean_company_name (s : List Char) : List Char :=
  srlSub (despace (basename (stripNonWord (s.map pyLower))))

/-! ## The row expander (`reshape_hmlr_proprietors`, lines 161-213)

A wide HMLR row carries up to four proprietor name slots.  A pandas cell
is either `NaN` (`Cell.null`) or a string value; the shared columns
(title number, tenure, address, ...) are collapsed into one opaque field,
which suffices for the claims about names, counts and ordering. -/

inductive Cell where
  | null : Cell
  | val : List Char → Cell
deriving DecidableEq

def Cell.isStr : Cell → Bool
  | .null => false
  | .val _ => true

structure HmlrRow where
  title_number : List Char
  proprietor_name_1 : Cell
  proprietor_name_2 : Cell
  proprietor_name_3 : Cell
  proprietor_name_4 : Cell
deriving DecidableEq

structure PropRecord where
  title_number : List Char
  proprietor_name : Cell
deriving DecidableEq

def slotName (r : HmlrRow) : Nat → Cell
  | 1 => r.proprietor_name_1
  | 2 => r.proprietor_name_2
  | 3 => r.proprietor_name_3
  | 4 => r.proprietor_name_4
  | _ => .null

/-- One `temp_df` of the Python loop: slot `i` of every row, with the slot
fields renamed to the canonical column names. -/
def slotColumn (rows : List HmlrRow) (i : Nat) : List PropRecord :=
  rows.map fun r => ⟨r.title_number, slotName r i⟩

/-- `reshape_hmlr_proprietors`: concatenate the four slot columns
(`pd.concat` in a loop over `i = 1..4`), then `dropna` on
`proprietor_name`, which removes only `NaN` cells. -/
def reshape_hmlr_proprietors (rows : List HmlrRow) : List PropRecord :=
  ((List.range 4).foldl (fun acc i => acc ++ slotColumn rows (i + 1)) []).filter
    fun p => p.proprietor_name.isStr

/-! ## The statistics block of `main` (lines 228-299)

`main` cleans both name columns, flags exclusions with `isin`, filters
the unmatched rows, deduplicates the HMLR side (first occurrence kept)
and derives the matched count by subtraction.  The only failure the
block can raise is a `ZeroDivisionError` in the percentage computation
when the unique count is zero. -/

/-- `drop_duplicates(keep="first")`: keep a key when it has not been seen
before.  `seen` is the set of keys already emitted. -/
def dedupFirstAux (seen : List (List Char)) : List (List Char) → List (List Char)
  | [] => []
  | k :: ks =>
    if k ∈ seen then dedupFirstAux seen ks
    else k :: dedupFirstAux (k :: seen) ks

def dedupFirst (l : List (List Char)) : List (List Char) :=
  dedupFirstAux [] l

/-- `.astype(str).apply(clean_company_name)` over a name column. -/
def cleanKeys (names : List (List Char)) : List (List Char) :=
  names.map clean_company_name

/-- `excluded_bool`: the key is `isin` the cleaned exclusion names. -/
def excludedPredB (ek : List (List Char)) (k : List Char) : Bool :=
  decide (k ∈ ek)

/-- Row filter of `hmlr_unmatched_in_roe_df`: not `isin` the opposite
side's keys and not excluded. -/
def unmatchedPredB (rk ek : List (List Char)) (k : List Char) : Bool :=
  !decide (k ∈ rk) && !decide (k ∈ ek)

/-- A key that is matched: present on the opposite side and not excluded
(the complement of the other two classes). -/
def matchedPredB (rk ek : List (List Char)) (k : List Char) : Bool :=
  decide (k ∈ rk) && !decide (k ∈ ek)

inductive PyError where
  | zeroDivisionError : PyError
deriving DecidableEq

structure PipelineStats where
  uniqueCount : Nat
  excludedCount : Nat
  unmatchedCount : Nat
  matchedCount : Int
  matchedPercentage : ℚ
deriving DecidableEq

/-- The statistics computation of `main` on the HMLR side (lines 256-299):
unique proprietors via first-kept dedup, excluded count summed over the
deduplicated frame, unmatched count as the number of distinct keys of the
unmatched frame, matched count derived by subtraction (line 294), and the
matched percentage, whose division raises `ZeroDivisionError` when the
unique count is zero. -/
def runStats (hmlrNames roeNames exclNames : List (List Char)) :
    Except PyError PipelineStats :=
  let hk := cleanKeys hmlrNames
  let rk := cleanKeys roeNames
  let ek := cleanKeys exclNames
  let uniq := dedupFirst hk
  let excludedCount := uniq.countP (excludedPredB ek)
  let unmatchedCount := (dedupFirst (hk.filter (unmatchedPredB rk ek))).length
  let matchedCount : Int := (uniq.length : Int) - unmatchedCount - excludedCount
  if uniq.length = 0 then .error .zeroDivisionError
  else .ok ⟨uniq.length, excludedCount, unmatchedCount, matchedCount,
    (matchedCount : ℚ) / (uniq.length : ℚ) * 100⟩

/-- Python values that can reach `str(...)` in `clean_company_name`:
`None`, pandas `NaN`, or an actual string. -/
inductive PyVal where
  | pyNone : PyVal
  | pyNan : PyVal
  | pyStr : List Char → PyVal
deriving DecidableEq

/-- `str(v)` as applied by `astype(str)` / line 68. -/
def pyToString : PyVal → List Char
  | .pyNone => "None".data
  | .pyNan => "nan".data
  | .pyStr s => s

def cleanPyName (v : PyVal) : List Char :=
  clean_company_name (pyToString v)

/-- The statistics block applied to raw (possibly non-string) name
columns, as `main` does via `astype(str)`. -/
def runStatsPy (hmlrNames roeNames exclNames : List PyVal) :
    Except PyError PipelineStats :=
  runStats (hmlrNames.map pyToString) (roeNames.map pyToString)
    (exclNames.map pyToString)

instance {ε α : Type} [DecidableEq ε] [DecidableEq α] : DecidableEq (Except ε α) := by
  intro x y
  cases x <;> cases y
  case error.error a b =>
    exact if h : a = b then isTrue (by rw [h]) else isFalse (by simp [h])
  case error.ok a b => exact isFalse (by simp)
  case ok.error a b => exact isFalse (by simp)
  case ok.ok a b =>
    exact if h : a = b then isTrue (by rw [h]) else isFalse (by simp [h])

/-- The four counts of a statistics result.  Concrete evaluations are
stated on this projection: the percentage field is a rational whose
normalization (`Nat.gcd`) is not kernel-reducible, so it is related to
the counts by the separate lemma `runStats_percentage`. -/
def PipelineStats.counts (st : PipelineStats) : Nat × Nat × Nat × Int :=
  (st.uniqueCount, st.excludedCount, st.unmatchedCount, st.matchedCount)

def statsCounts (r : Except PyError PipelineStats) :
    Except PyError (Nat × Nat × Nat × Int) :=
  r.map PipelineStats.counts

/-! ## Character-level lemmas -/

theorem toNat_ofNat_of_lt {n : Nat} (h : n < 0xd800) :
    (Char.ofNat n).toNat = n := by
  unfold Char.ofNat
  rw [dif_pos (Or.inl h)]
  rfl

theorem pyLower_not_upper (c : Char) : isUpperChar (pyLower c) = false := by
  show isUpperChar
    (if c.toNat ≥ 65 ∧ c.toNat ≤ 90 then Char.ofNat (c.toNat + 32) else c) = false
  split
  · next h =>
    have hn : (Char.ofNat (c.toNat + 32)).toNat = c.toNat + 32 :=
      toNat_ofNat_of_lt (by omega)
    simp only [isUpperChar, hn, decide_eq_false_iff_not]
    omega
  · next h =>
    simp only [isUpperChar, decide_eq_false_iff_not]
    omega

theorem pyLower_eq_self_of_not_upper (c : Char) (h : isUpperChar c = false) :
    pyLower c = c := by
  simp only [isUpperChar, decide_eq_false_iff_not] at h
  show (if c.toNat ≥ 65 ∧ c.toNat ≤ 90 then Char.ofNat (c.toNat + 32) else c) = c
  rw [if_neg h]

theorem not_space_ne_space {c : Char} (h : isSpaceChar c = false) : (c != ' ') = true := by
  rcases eq_or_ne c ' ' with rfl | hne
  · simp [isSpaceChar] at h
  · simpa using hne

/-! ## Lemmas about the pipeline steps -/

/-- Every character of every token of `splitWsAux s acc` satisfies `P`,
provided the pending characters in `acc` do and the non-whitespace
characters of `s` do. -/
theorem splitWsAux_chars {P : Char → Prop} :
    ∀ (s acc : List Char), (∀ c ∈ acc, P c) →
      (∀ c ∈ s, isSpaceChar c = false → P c) →
      ∀ t ∈ splitWsAux s acc, ∀ c ∈ t, P c := by
  intro s
  induction s with
  | nil =>
    intro acc hacc _ t ht c hc
    simp only [splitWsAux] at ht
    split at ht
    · simp at ht
    · simp only [List.mem_singleton] at ht
      subst ht
      exact hacc c (List.mem_reverse.mp hc)
  | cons d s ih =>
    intro acc hacc hs t ht c hc
    simp only [splitWsAux] at ht
    split at ht
    · split at ht
      · exact ih [] (by simp) (fun c hc h => hs c (List.mem_cons_of_mem _ hc) h) t ht c hc
      · rcases List.mem_cons.mp ht with rfl | ht2
        · exact hacc c (List.mem_reverse.mp hc)
        · exact ih [] (by simp) (fun c hc h => hs c (List.mem_cons_of_mem _ hc) h) t ht2 c hc
    · next hd =>
      refine ih (d :: acc) ?_ (fun c hc h => hs c (List.mem_cons_of_mem _ hc) h) t ht c hc
      intro c hc
      rcases List.mem_cons.mp hc with rfl | hc2
      · exact hs c (List.mem_cons_self _ _) (Bool.not_eq_true _ ▸ eq_false_of_ne_true hd)
      · exact hacc c hc2

theorem splitWs_chars {P : Char → Prop} (s : List Char)
    (hs : ∀ c ∈ s, isSpaceChar c = false → P c) :
    ∀ t ∈ splitWs s, ∀ c ∈ t, P c :=
  splitWsAux_chars s [] (by simp) hs

/-- Tokens produced by `splitWs` contain no whitespace characters. -/
theorem splitWs_no_space (s : List Char) :
    ∀ t ∈ splitWs s, ∀ c ∈ t, isSpaceChar c = false ∧ c ∈ s :=
  splitWs_chars s (fun _ hc h => ⟨h, hc⟩)

/-- Suffix stripping only deletes tokens: every surviving token was a
token of the input. -/
theorem stripSuffixTerms_subset (toks : List (List Char)) :
    ∀ t ∈ stripSuffixTerms toks, t ∈ toks := by
  unfold stripSuffixTerms
  generalize suffixVocab = terms
  induction terms generalizing toks with
  | nil => simp
  | cons term terms ih =>
    intro t ht
    simp only [List.foldl_cons] at ht
    have h2 := ih _ t ht
    split at h2
    · exact (List.dropLast_subset _) h2
    · exact h2

/-- Every character of `joinSpace ts` is a space or a token character. -/
theorem joinSpace_chars :
    ∀ (ts : List (List Char)), ∀ c ∈ joinSpace ts, c = ' ' ∨ ∃ t ∈ ts, c ∈ t := by
  intro ts
  induction ts with
  | nil => simp [joinSpace]
  | cons t ts ih =>
    intro c hc
    cases ts with
    | nil =>
      simp only [joinSpace] at hc
      exact Or.inr ⟨t, by simp, hc⟩
    | cons t2 ts2 =>
      simp only [joinSpace, List.mem_append, List.mem_cons] at hc
      rcases hc with hc | rfl | hc
      · exact Or.inr ⟨t, by simp, hc⟩
      · exact Or.inl rfl
      · rcases ih c hc with rfl | ⟨u, hu, hcu⟩
        · exact Or.inl rfl
        · exact Or.inr ⟨u, List.mem_cons_of_mem _ hu, hcu⟩

/-- After `despace`, the output of `basename` contains no whitespace at
all: tokens are whitespace-free and the joining spaces are removed. -/
theorem despace_basename_no_space (y : List Char) :
    ∀ c ∈ despace (basename y), isSpaceChar c = false := by
  intro c hc
  unfold despace at hc
  rw [List.mem_filter] at hc
  obtain ⟨hmem, hne⟩ := hc
  unfold basename at hmem
  rcases joinSpace_chars _ c hmem with rfl | ⟨t, ht, hct⟩
  · simp at hne
  · exact (splitWs_no_space y t (stripSuffixTerms_subset _ t ht) c hct).1

/-- A successful `srlMatch` window contains a whitespace character. -/
theorem srlMatch_has_space (l : List Char) (h : srlMatch l = true) :
    ∃ c ∈ l, isSpaceChar c = true := by
  match l, h with
  | [a, b, c, d, e, f], h =>
    unfold srlMatch at h
    simp only [Bool.and_eq_true] at h
    exact ⟨a, by simp, h.1.1.1.1.1⟩

/-- On whitespace-free strings the SRL pattern removal is the identity. -/
theorem srlSub_eq_self (s : List Char) (h : ∀ c ∈ s, isSpaceChar c = false) :
    srlSub s = s := by
  unfold srlSub
  split
  · next hm =>
    obtain ⟨c, hc, hsp⟩ := srlMatch_has_space _ hm
    exact absurd (h c (List.drop_subset _ _ hc)) (by simp [hsp])
  · rfl

/-- The last pipeline step of `clean_company_name` is dead code: the SRL
pattern requires whitespace, but the preceding steps have removed it all
(tokenization eats every whitespace character and `despace` removes the
single spaces that re-joining inserted), so the pattern never matches. -/
theorem clean_company_name_srl_dead (s : List Char) :
    clean_company_name s =
      despace (basename (stripNonWord (s.map pyLower))) := by
  unfold clean_company_name
  exact srlSub_eq_self _ (despace_basename_no_space _)

/-- Shape of every character of a canonical key: a word character (as the
step-2 filter guarantees), not whitespace, and not an upper-case letter
(as lower-casing guarantees). -/
theorem clean_company_name_chars (s : List Char) :
    ∀ c ∈ clean_company_name s,
      isWordChar c = true ∧ isSpaceChar c = false ∧ isUpperChar c = false := by
  intro c hc
  rw [clean_company_name_srl_dead] at hc
  have hnsp : isSpaceChar c = false := despace_basename_no_space _ c hc
  unfold despace at hc
  rw [List.mem_filter] at hc
  obtain ⟨hmem, -⟩ := hc
  unfold basename at hmem
  rcases joinSpace_chars _ c hmem with rfl | ⟨t, ht, hct⟩
  · simp [isSpaceChar] at hnsp
  · have hmem2 : c ∈ stripNonWord (s.map pyLower) :=
      (splitWs_no_space _ t (stripSuffixTerms_subset _ t ht) c hct).2
    unfold stripNonWord at hmem2
    rw [List.mem_filter] at hmem2
    obtain ⟨hmap, hwd⟩ := hmem2
    rw [List.mem_map] at hmap
    obtain ⟨c0, -, rfl⟩ := hmap
    refine ⟨?_, hnsp, pyLower_not_upper c0⟩
    rcases Bool.or_eq_true_iff.mp hwd with hw | hsp
    · exact hw
    · exact absurd hnsp (by simp [hsp])

/-! ## Idempotence on already-clean strings -/

theorem splitWsAux_no_space (y : List Char)
    (h : ∀ c ∈ y, isSpaceChar c = false) :
    ∀ acc : List Char, splitWsAux y acc =
      if acc.reverse ++ y = [] then [] else [acc.reverse ++ y] := by
  induction y with
  | nil => intro acc; simp [splitWsAux]
  | cons d ys ih =>
    intro acc
    have hd : isSpaceChar d = false := h d (List.mem_cons_self _ _)
    simp only [splitWsAux, hd, Bool.false_eq_true, if_false]
    rw [ih (fun c hc => h c (List.mem_cons_of_mem _ hc)) (d :: acc)]
    simp [List.append_assoc]

/-- On a whitespace-free string, tokenization returns the string itself
as the only token (or nothing, when the string is empty). -/
theorem splitWs_no_space_eq (y : List Char)
    (h : ∀ c ∈ y, isSpaceChar c = false) :
    splitWs y = if y = [] then [] else [y] := by
  unfold splitWs
  rw [splitWsAux_no_space y h []]
  simp

theorem stripSuffixTerms_singleton (y : List Char) (h : y ∉ suffixVocab) :
    stripSuffixTerms [y] = [y] := by
  simp only [suffixVocab, List.mem_cons, not_or, List.not_mem_nil] at h
  obtain ⟨h1, h2, h3, h4, h5, -⟩ := h
  simp [stripSuffixTerms, suffixVocab, h1, h2, h3, h4, h5]

theorem despace_eq_self (y : List Char)
    (h : ∀ c ∈ y, isSpaceChar c = false) :
    despace y = y :=
  List.filter_eq_self.mpr (fun c hc => not_space_ne_space (h c hc))

/-- `clean_company_name` is the identity on any string made of word
characters only, none upper-case, that is not itself a vocabulary term -
in particular on such outputs of `clean_company_name` itself. -/
theorem clean_company_name_fixed (y : List Char)
    (hw : ∀ c ∈ y, isWordChar c = true ∧ isSpaceChar c = false ∧ isUpperChar c = false)
    (hv : y ∉ suffixVocab) :
    clean_company_name y = y := by
  have hmap : y.map pyLower = y := by
    rw [List.map_congr_left
      (fun c hc => pyLower_eq_self_of_not_upper c (hw c hc).2.2)]
    exact List.map_id' y
  have hfil : stripNonWord y = y :=
    List.filter_eq_self.mpr (fun c hc => by simp [(hw c hc).1])
  unfold clean_company_name basename
  rw [hmap, hfil]
  rcases eq_or_ne y [] with rfl | hy
  · rfl
  · rw [splitWs_no_space_eq y (fun c hc => (hw c hc).2.1), if_neg hy,
      stripSuffixTerms_singleton y hv]
    show srlSub (despace y) = y
    rw [despace_eq_self y (fun c hc => (hw c hc).2.1)]
    exact srlSub_eq_self y (fun c hc => (hw c hc).2.1)

/-! ## Deduplication lemmas -/

/-- Seen-lists that agree on membership of every element of `l` drive
the deduplication identically. -/
theorem dedupFirstAux_congr (l : List (List Char)) :
    ∀ seen1 seen2, (∀ k ∈ l, k ∈ seen1 ↔ k ∈ seen2) →
      dedupFirstAux seen1 l = dedupFirstAux seen2 l := by
  induction l with
  | nil => intro _ _ _; rfl
  | cons k ks ih =>
    intro s1 s2 hss
    have hk := hss k (List.mem_cons_self _ _)
    simp only [dedupFirstAux]
    by_cases h1 : k ∈ s1
    · rw [if_pos h1, if_pos (hk.mp h1)]
      exact ih _ _ (fun j hj => hss j (List.mem_cons_of_mem _ hj))
    · rw [if_neg h1, if_neg (fun h2 => h1 (hk.mpr h2))]
      congr 1
      refine ih _ _ (fun j hj => ?_)
      simp only [List.mem_cons]
      exact or_congr_right (hss j (List.mem_cons_of_mem _ hj))

/-- Filtering by a key predicate commutes with first-kept deduplication:
`drop_duplicates` after a row filter sees exactly the filtered uniques. -/
theorem dedupFirstAux_filter (p : List Char → Bool) (l : List (List Char)) :
    ∀ seen, dedupFirstAux seen (l.filter p) =
      (dedupFirstAux seen l).filter p := by
  induction l with
  | nil => intro _; rfl
  | cons k ks ih =>
    intro seen
    by_cases hp : p k
    · rw [List.filter_cons_of_pos hp]
      simp only [dedupFirstAux]
      by_cases hs : k ∈ seen
      · rw [if_pos hs, if_pos hs, ih]
      · rw [if_neg hs, if_neg hs, List.filter_cons_of_pos hp, ih]
    · rw [List.filter_cons_of_neg hp]
      simp only [dedupFirstAux]
      by_cases hs : k ∈ seen
      · rw [if_pos hs, ih]
      · rw [if_neg hs, List.filter_cons_of_neg hp, ← ih (k :: seen)]
        refine dedupFirstAux_congr _ _ _ (fun j hj => ?_)
        have hpj : p j := (List.mem_filter.mp hj).2
        have hjk : j ≠ k := fun h => by
          rw [h] at hpj; exact hp hpj
        simp [List.mem_cons, hjk]

theorem dedupFirst_filter (p : List Char → Bool) (l : List (List Char)) :
    dedupFirst (l.filter p) = (dedupFirst l).filter p :=
  dedupFirstAux_filter p l []

/-- The three reconciliation classes count up to the whole list. -/
theorem countP_three_partition (l : List (List Char)) (e r : List Char → Bool) :
    l.countP e + l.countP (fun k => !r k && !e k)
      + l.countP (fun k => r k && !e k) = l.length := by
  induction l with
  | nil => simp
  | cons k ks ih =>
    simp only [List.countP_cons, List.length_cons]
    by_cases he : e k <;> by_cases hr : r k <;> simp [he, hr] <;> omega

/-! ## Extraction lemmas for `runStats` -/

theorem runStats_ok_elim {hmlr roe excl : List (List Char)}
    {st : PipelineStats} (h : runStats hmlr roe excl = .ok st) :
    st.uniqueCount = (dedupFirst (cleanKeys hmlr)).length ∧
    st.excludedCount =
      (dedupFirst (cleanKeys hmlr)).countP (excludedPredB (cleanKeys excl)) ∧
    st.unmatchedCount =
      (dedupFirst ((cleanKeys hmlr).filter
        (unmatchedPredB (cleanKeys roe) (cleanKeys excl)))).length ∧
    st.matchedCount =
      (st.uniqueCount : Int) - st.unmatchedCount - st.excludedCount ∧
    st.matchedPercentage =
      (st.matchedCount : ℚ) / (st.uniqueCount : ℚ) * 100 := by
  simp only [runStats] at h
  split at h
  · exact absurd h (by simp)
  · obtain rfl := (Except.ok.inj h).symm
    exact ⟨rfl, rfl, rfl, rfl, rfl⟩

theorem dedupFirst_cons_length (k : List Char) (l : List (List Char)) :
    (dedupFirst (k :: l)).length ≠ 0 := by
  simp [dedupFirst, dedupFirstAux]

theorem runStats_ok_of_ne_nil (hmlr roe excl : List (List Char))
    (h : hmlr ≠ []) : ∃ st, runStats hmlr roe excl = .ok st := by
  match hmlr, h with
  | x :: xs, _ =>
    have hne : (dedupFirst (cleanKeys (x :: xs))).length ≠ 0 :=
      dedupFirst_cons_length _ _
    simp only [runStats]
    rw [if_neg hne]
    exact ⟨_, rfl⟩

theorem runStats_empty_roe_matched_zero (hmlr excl : List (List Char))
    (st : PipelineStats) (h : runStats hmlr [] excl = .ok st) :
    st.matchedCount = 0 ∧ st.matchedPercentage = 0 := by
  obtain ⟨hu, he, hum, hm, hp⟩ := runStats_ok_elim h
  have hpred : (cleanKeys hmlr).filter
        (unmatchedPredB (cleanKeys []) (cleanKeys excl)) =
      (cleanKeys hmlr).filter (fun k => !excludedPredB (cleanKeys excl) k) :=
    List.filter_congr (fun k _ => by simp [unmatchedPredB, excludedPredB, cleanKeys])
  have hsplit := List.length_eq_countP_add_countP
    (p := excludedPredB (cleanKeys excl)) (dedupFirst (cleanKeys hmlr))
  have hcong : (dedupFirst (cleanKeys hmlr)).countP
        (fun k => !excludedPredB (cleanKeys excl) k) =
      (dedupFirst (cleanKeys hmlr)).countP
        (fun a => ¬excludedPredB (cleanKeys excl) a) :=
    List.countP_congr (fun x _ => by simp)
  rw [hpred, dedupFirst_filter, ← List.countP_eq_length_filter, hcong] at hum
  have hm0 : st.matchedCount = 0 := by
    rw [hm, hu, he, hum]
    omega
  refine ⟨hm0, ?_⟩
  rw [hp, hm0]
  simp

/-! ## The claims -/

/-- Claim C1: normalization is insensitive to case and to the targeted
legal-suffix and punctuation variations: `clean_company_name` maps
"Acme Ltd." and "ACME LIMITED" to the same canonical key, and likewise
"Ajax S.r.l." and "AJAX SRL". -/
theorem clean_suffix_case_insensitive :
    clean_company_name ("Acme Ltd.".data) =
      clean_company_name ("ACME LIMITED".data) ∧
    clean_company_name ("Ajax S.r.l.".data) =
      clean_company_name ("AJAX SRL".data) ∧
    clean_company_name ("Acme Ltd.".data) = ("acme".data) ∧
    clean_company_name ("Ajax S.r.l.".data) = ("ajax".data) := by
  decide

/-- Claim C2 (code bug): the row expander keeps blank and whitespace-only
names.  `dropna` on `proprietor_name` (line 211) removes only `NaN`
cells, so the row whose four name slots are "Acme", "", null, "  "
expands to three records, not one, contradicting the spec and the code's
own comment (line 210, "Remove rows where proprietor_name is blank or
NaN"). -/
theorem reshape_keeps_blank_and_whitespace_names :
    reshape_hmlr_proprietors
        [⟨"t1".data, .val ("Acme".data), .val ("".data), .null,
          .val ("  ".data)⟩] =
      [⟨"t1".data, .val ("Acme".data)⟩, ⟨"t1".data, .val ("".data)⟩,
       ⟨"t1".data, .val ("  ".data)⟩] ∧
    (reshape_hmlr_proprietors
        [⟨"t1".data, .val ("Acme".data), .val ("".data), .null,
          .val ("  ".data)⟩]).length = 3 := by
  decide

/-- Claim C3 (code bug): the code runs internal whitespace removal
(line 71) before the end-anchored residual suffix-pattern removal
(lines 72-74), not after it as the spec's step order requires, so the
pattern - which needs whitespace to match - never fires and the
broken-apart suffix stays in the canonical key: "Acme sa rl" keeps its
suffix letters, while under the spec's order (second conjunct: pattern
removal applied before space removal) the suffix would be stripped. -/
theorem clean_srl_order_bug :
    clean_company_name ("Acme sa rl".data) = ("acmesarl".data) ∧
    despace (srlSub (basename (stripNonWord
        (("Acme sa rl".data).map pyLower)))) = ("acme".data) := by
  decide

/-- Claim C4, counterexample: with a non-empty HMLR side and an *empty*
ROE side, the pipeline does not fail at all - it completes and reports
one unique, none excluded, one unmatched, zero matched (a silent 0%
match), so no `InvalidInputError` is raised when a side is empty. -/
theorem runStats_empty_roe_completes :
    statsCounts (runStats [("Acme Ltd".data)] [] []) = .ok (1, 0, 1, 0) := by
  decide

/-- Claim C4 amended: the code defines no `InvalidInputError`.  An empty
HMLR side aborts with a `ZeroDivisionError` from the percentage
computation; a non-empty HMLR side always completes, and in particular
an empty ROE side silently yields zero matched and a 0% matched
percentage. -/
theorem runStats_error_behaviour :
    (∀ roe excl, runStats [] roe excl = .error .zeroDivisionError) ∧
    (∀ hmlr roe excl, hmlr ≠ [] →
      ∃ st, runStats hmlr roe excl = .ok st) ∧
    (∀ hmlr excl st, runStats hmlr [] excl = .ok st →
      st.matchedCount = 0 ∧ st.matchedPercentage = 0) :=
  ⟨fun _ _ => rfl, runStats_ok_of_ne_nil, runStats_empty_roe_matched_zero⟩

/-- Witness for `runStats_error_behaviour` at concrete inputs. -/
theorem runStats_error_behaviour_witness :
    runStats [] [] [] = .error .zeroDivisionError ∧
    (∃ st, runStats [("x".data)] [("y".data)] [] = .ok st) ∧
    (∃ st, runStats [("x".data)] [] [] = .ok st ∧
      st.matchedCount = 0 ∧ st.matchedPercentage = 0) :=
  ⟨runStats_error_behaviour.1 [] [],
   runStats_error_behaviour.2.1 [("x".data)] [("y".data)] [] (by decide),
   ⟨⟨1, 0, 1, 0, ((0 : Int) : ℚ) / ((1 : Nat) : ℚ) * 100⟩, rfl,
    runStats_error_behaviour.2.2 [("x".data)] []
      ⟨1, 0, 1, 0, ((0 : Int) : ℚ) / ((1 : Nat) : ℚ) * 100⟩ rfl⟩⟩

/-- Claim C5: every unique HMLR key falls in exactly one of the three
classes excluded / matched / unmatched, the matched count is derived as
`unique - unmatched - excluded` (line 294), it equals the actual number
of matched unique keys, and the three partition counts sum exactly to
the unique total. -/
theorem runStats_partition (hmlr roe excl : List (List Char))
    (st : PipelineStats) (h : runStats hmlr roe excl = .ok st) :
    (∀ k ∈ dedupFirst (cleanKeys hmlr),
      (excludedPredB (cleanKeys excl) k = true
          ∧ matchedPredB (cleanKeys roe) (cleanKeys excl) k = false
          ∧ unmatchedPredB (cleanKeys roe) (cleanKeys excl) k = false)
        ∨ (excludedPredB (cleanKeys excl) k = false
          ∧ matchedPredB (cleanKeys roe) (cleanKeys excl) k = true
          ∧ unmatchedPredB (cleanKeys roe) (cleanKeys excl) k = false)
        ∨ (excludedPredB (cleanKeys excl) k = false
          ∧ matchedPredB (cleanKeys roe) (cleanKeys excl) k = false
          ∧ unmatchedPredB (cleanKeys roe) (cleanKeys excl) k = true)) ∧
    st.matchedCount =
      (st.uniqueCount : Int) - st.unmatchedCount - st.excludedCount ∧
    st.matchedCount =
      ((dedupFirst (cleanKeys hmlr)).countP
        (matchedPredB (cleanKeys roe) (cleanKeys excl)) : Int) ∧
    st.matchedCount + st.unmatchedCount + st.excludedCount =
      (st.uniqueCount : Int) := by
  obtain ⟨hu, he, hum, hm, -⟩ := runStats_ok_elim h
  have hcount := countP_three_partition (dedupFirst (cleanKeys hmlr))
    (excludedPredB (cleanKeys excl)) (fun k => decide (k ∈ cleanKeys roe))
  have hum2 : (dedupFirst (cleanKeys hmlr)).countP
        (unmatchedPredB (cleanKeys roe) (cleanKeys excl)) =
      (dedupFirst (cleanKeys hmlr)).countP
        (fun k => !(decide (k ∈ cleanKeys roe))
          && !(excludedPredB (cleanKeys excl) k)) :=
    List.countP_congr (fun x _ => by simp [unmatchedPredB, excludedPredB])
  have hma2 : (dedupFirst (cleanKeys hmlr)).countP
        (matchedPredB (cleanKeys roe) (cleanKeys excl)) =
      (dedupFirst (cleanKeys hmlr)).countP
        (fun k => decide (k ∈ cleanKeys roe)
          && !(excludedPredB (cleanKeys excl) k)) :=
    List.countP_congr (fun x _ => by simp [matchedPredB, excludedPredB])
  rw [dedupFirst_filter, ← List.countP_eq_length_filter] at hum
  refine ⟨?_, hm, ?_, ?_⟩
  · intro k _
    by_cases hek : k ∈ cleanKeys excl <;> by_cases hrk : k ∈ cleanKeys roe <;>
      simp [excludedPredB, matchedPredB, unmatchedPredB, hek, hrk]
  · rw [hm, hu, he, hum, hum2, hma2]
    omega
  · rw [hm, hu, he, hum]
    omega

/-- Witness for `runStats_partition`: the scenario of the spec's §8
("Acme Trading Ltd" vs "ACME TRADING LIMITED") gives one unique key on
each side, fully matched, and the counts sum to the unique total. -/
theorem runStats_partition_witness :
    ∃ st : PipelineStats,
      runStats [("Acme Trading Ltd".data)] [("ACME TRADING LIMITED".data)] []
          = .ok st ∧
        st.matchedCount =
          ((dedupFirst (cleanKeys [("Acme Trading Ltd".data)])).countP
            (matchedPredB (cleanKeys [("ACME TRADING LIMITED".data)])
              (cleanKeys [])) : Int) ∧
        st.matchedCount + st.unmatchedCount + st.excludedCount =
          (st.uniqueCount : Int) :=
  ⟨⟨1, 0, 0, 1, ((1 : Int) : ℚ) / ((1 : Nat) : ℚ) * 100⟩, rfl,
   (runStats_partition [("Acme Trading Ltd".data)]
      [("ACME TRADING LIMITED".data)] []
      ⟨1, 0, 0, 1, ((1 : Int) : ℚ) / ((1 : Nat) : ℚ) * 100⟩ rfl).2.2.1,
   (runStats_partition [("Acme Trading Ltd".data)]
      [("ACME TRADING LIMITED".data)] []
      ⟨1, 0, 0, 1, ((1 : Int) : ℚ) / ((1 : Nat) : ℚ) * 100⟩ rfl).2.2.2⟩

/-- Claim C6, counterexample: the canonical key is not alphanumeric-only.
Python's `\w` class keeps the underscore, which is punctuation, so
"a_b" normalizes to "a_b", which contains a non-alphanumeric character. -/
theorem clean_underscore_retained :
    clean_company_name ("a_b".data) = ("a_b".data) ∧
    '_' ∈ clean_company_name ("a_b".data) ∧
    Char.isAlphanum '_' = false := by
  decide

/-- Claim C6 amended: for every input, every character of the canonical
key is a word character (letter, digit or underscore - not necessarily
alphanumeric, since `\w` admits the underscore), no character is an
upper-case letter, and no character is whitespace. -/
theorem clean_key_char_shape (s : List Char) :
    (clean_company_name s).all
      (fun c => isWordChar c && !isSpaceChar c && !isUpperChar c) = true := by
  rw [List.all_eq_true]
  intro c hc
  obtain ⟨h1, h2, h3⟩ := clean_company_name_chars s c hc
  simp [h1, h2, h3]

/-- Claim C7, counterexample: normalization is not idempotent.  The name
"s r l" normalizes to the key "srl", but a second pass recognizes "srl"
as a suffix-vocabulary term and erases it to the empty string. -/
theorem clean_not_idempotent_on_srl :
    clean_company_name ("s r l".data) = ("srl".data) ∧
    clean_company_name (clean_company_name ("s r l".data)) = [] ∧
    clean_company_name (clean_company_name ("s r l".data)) ≠
      clean_company_name ("s r l".data) := by
  decide

/-- Claim C7 amended: normalization is idempotent for every input whose
canonical key is not itself a suffix-vocabulary term; when the key is a
term (such as "srl"), a second pass strips it to the empty string. -/
theorem clean_idempotent_of_key_not_suffix (x : List Char)
    (h : clean_company_name x ∉ suffixVocab) :
    clean_company_name (clean_company_name x) = clean_company_name x :=
  clean_company_name_fixed (clean_company_name x)
    (clean_company_name_chars x) h

/-- Witness for `clean_idempotent_of_key_not_suffix` at "Acme Ltd". -/
theorem clean_idempotent_of_key_not_suffix_witness :
    clean_company_name ("Acme Ltd".data) ∉ suffixVocab ∧
    clean_company_name (clean_company_name ("Acme Ltd".data)) =
      clean_company_name ("Acme Ltd".data) :=
  ⟨by decide, clean_idempotent_of_key_not_suffix ("Acme Ltd".data) (by decide)⟩

/-- Claim C8, counterexample: expansion order is not row-major.  For two
rows with two populated slots each, the output is slot 1 of row 1, slot
1 of row 2, slot 2 of row 1, slot 2 of row 2 - row 2's first slot comes
before row 1's second slot, so the surviving slots of the first row do
not all precede those of the second row. -/
theorem reshape_order_slot_major :
    (reshape_hmlr_proprietors
        [⟨"1".data, .val ("a".data), .val ("b".data), .null, .null⟩,
         ⟨"2".data, .val ("c".data), .val ("d".data), .null, .null⟩]).map
      (fun p => p.proprietor_name) =
      [.val ("a".data), .val ("c".data), .val ("b".data), .val ("d".data)] ∧
    (reshape_hmlr_proprietors
        [⟨"1".data, .val ("a".data), .val ("b".data), .null, .null⟩,
         ⟨"2".data, .val ("c".data), .val ("d".data), .null, .null⟩]).map
      (fun p => p.proprietor_name) ≠
      [.val ("a".data), .val ("b".data), .val ("c".data), .val ("d".data)] := by
  decide

/-- Claim C8 amended: the expander's output is slot-major - the whole
slot-1 column (rows in input order), then the slot-2 column, then slots
3 and 4, with the `NaN`-name records filtered out afterwards. -/
theorem reshape_eq_slot_columns (rows : List HmlrRow) :
    reshape_hmlr_proprietors rows =
      (slotColumn rows 1 ++ slotColumn rows 2 ++ slotColumn rows 3
        ++ slotColumn rows 4).filter (fun p => p.proprietor_name.isStr) := by
  have h4 : List.range 4 = [0, 1, 2, 3] := rfl
  unfold reshape_hmlr_proprietors
  rw [h4]
  simp only [List.foldl_cons, List.foldl_nil, List.nil_append]

/-- Claim C9: a non-empty, non-blank, suffix-only name such as "Limited"
normalizes to the empty key; the row expander drops only null names, so
the record enters the key space, and a suffix-only record on the
opposite side ("LTD", also empty key) then matches it. -/
theorem suffix_only_names_collide :
    ("Limited".data ≠ ([] : List Char)) ∧
    (("Limited".data).any (fun c => !isSpaceChar c) = true) ∧
    clean_company_name ("Limited".data) = [] ∧
    reshape_hmlr_proprietors
        [⟨"t1".data, .val ("Limited".data), .null, .null, .null⟩] =
      [⟨"t1".data, .val ("Limited".data)⟩] ∧
    statsCounts (runStats [("Limited".data)] [("LTD".data)] []) =
      .ok (1, 0, 0, 1) := by
  decide

/-- Claim C10: non-string names are coerced by `str(...)` before
normalization, so a `None` name yields the non-empty key "none" and a
pandas `NaN` yields "nan"; such keys participate in matching and two
records with absent names (both `None`) collide on the same key and
match across sides. -/
theorem missing_names_become_none_nan_keys :
    cleanPyName .pyNone = ("none".data) ∧
    cleanPyName .pyNan = ("nan".data) ∧
    cleanPyName .pyNone ≠ [] ∧
    cleanPyName .pyNan ≠ [] ∧
    statsCounts (runStatsPy [.pyNone] [.pyNone] []) = .ok (1, 0, 0, 1) := by
  decide

end RoeHmlr
